import Mathlib

/-!
Verification development for the qppsim discrete-event simulator.

Each definition in this file is a shallow embedding of the corresponding
Python entity of the repository (module and symbol named in the doc
comment).  `qppsim.Time` values are embedded as their integer
millisecond counts, so times in this file are plain `Int`.  Machine integers of the source are modelled as `Int` (Python
integers are unbounded, so no wrap-around modelling is needed); the
shared pseudo-random stream is modelled as a boolean oracle
`Nat → Bool` together with an explicit next-draw index; code that can
fail an assertion is modelled with `Except String`.
-/

namespace Qppsim


/-- `qppsim.scheduler.SchedulerBase.RTX_DELAY`: 8 ms between a failed
transmission and its retry. -/
def RTX_DELAY : Int := 8

/-- `qppsim.Bearer.TX_DELAY`: 4 ms between the last byte of a packet being
scheduled and the application receiving it. -/
def TX_DELAY : Int := 4

/-- `qppsim.Application.NETWORK_OVERHEAD`: 30 bytes added to every generated
packet before it is enqueued (8 UDP + 20 IPv4 + 2 PDCP). -/
def NETWORK_OVERHEAD : Int := 30

/-- `qppsim.Time.Time.nearest_second`: the source computes
`round(self.milliseconds, -3)`, i.e. Python rounding of the millisecond
count to a multiple of 1000 with ties going to the even multiple. -/
def nearestSecond (m : Int) : Int :=
  let q := Int.ediv m 1000
  let r := Int.emod m 1000
  if r < 500 then q * 1000
  else if 500 < r then (q + 1) * 1000
  else (if Int.emod q 2 = 0 then q else q + 1) * 1000

/-- Flooring a time to the second that contains it (what the spec sentence
`loss[floor(now,1s)]` describes; kept for comparison with
`nearestSecond`, which is what the code computes). -/
def floorSecond (m : Int) : Int :=
  Int.ediv m 1000 * 1000

/-- `qppsim.Packet.Packet`: byte-accounted unit.  The Python object stores
`_size`, `_tx_size`, `_rtx_waiting_size`, `_tx_time`, `_pid` and a cached
`_pending` field (set by the constructor and recomputed only by the
`tx_size` / `rtx_waiting_size` setters). -/
structure Packet where
  pid : Nat
  size : Int
  txSize : Int
  rtxWaitingSize : Int
  pending : Int
  txTime : Int
  deriving Repr, DecidableEq

namespace Packet

/-- `Packet.__init__` (with an explicit pid): `_pending` is initialised to
the full size, transmitted and awaiting-retry counts to zero.  The source
asserts `size > 0`. -/
def make (pid : Nat) (size : Int) (txTime : Int) : Packet :=
  { pid := pid, size := size, txSize := 0, rtxWaitingSize := 0,
    pending := size, txTime := txTime }

/-- The `tx_size` setter: recomputes `_pending` from the current size, the
new transmitted count and the current awaiting-retry count. -/
def setTxSize (p : Packet) (v : Int) : Packet :=
  { p with pending := p.size - v - p.rtxWaitingSize, txSize := v }

/-- The `rtx_waiting_size` setter: recomputes `_pending` from the current
size, the current transmitted count and the new awaiting-retry count. -/
def setRtxWaitingSize (p : Packet) (v : Int) : Packet :=
  { p with pending := p.size - p.txSize - v, rtxWaitingSize := v }

/-- `Packet.add_overhead`: increases `_size` only; the cached `_pending`
is left untouched by the source. -/
def addOverhead (p : Packet) (overhead : Int) : Packet :=
  { p with size := p.size + overhead }

/-- `Packet.remove_overhead`: decreases `_size` only; the cached
`_pending` is left untouched by the source. -/
def removeOverhead (p : Packet) (overhead : Int) : Packet :=
  { p with size := p.size - overhead }

/-- `Packet.pending_size`: returns the cached `_pending` field. -/
def pendingSize (p : Packet) : Int := p.pending

/-- `Packet.transmit_bytes`: consume up to `amount` bytes of the cached
pending count; with `rtx` the bytes move to awaiting-retry, otherwise to
transmitted.  Returns `(used, updated packet)`. -/
def transmitBytes (p : Packet) (amount : Int) (rtx : Bool) : Int × Packet :=
  let used := if amount > p.pendingSize then p.pendingSize else amount
  if rtx then (used, p.setRtxWaitingSize (p.rtxWaitingSize + used))
  else (used, p.setTxSize (p.txSize + used))

/-- `Packet.retransmit_bytes`: move up to `amount` bytes from
awaiting-retry to transmitted (two setter calls, in source order).
Returns `(used, updated packet)`. -/
def retransmitBytes (p : Packet) (amount : Int) : Int × Packet :=
  let used := if amount > p.rtxWaitingSize then p.rtxWaitingSize else amount
  let p1 := p.setRtxWaitingSize (p.rtxWaitingSize - used)
  (used, p1.setTxSize (p1.txSize + used))

end Packet

/-- The packet byte-accounting invariant stated by the specification:
the cached pending count agrees with `size − tx_sent − tx_retry`, the
partitions fit inside the packet, and all counts are non-negative. -/
def wfPacket (p : Packet) : Prop :=
  0 ≤ p.txSize ∧ 0 ≤ p.rtxWaitingSize ∧
  p.txSize + p.rtxWaitingSize ≤ p.size ∧
  p.pending = p.size - p.txSize - p.rtxWaitingSize

instance (p : Packet) : Decidable (wfPacket p) := by
  unfold wfPacket; infer_instance

/-! ## Time-keyed byte series (the `SortedDict` maps `loss` / `throughput`)

The Python maps are modelled as association lists with unique keys; only
lookup and `if key not in m: m[key] = 0; m[key] += v` (here `bump`) are
used by the embedded code. -/

/-- Sum of a list of integers. -/
def sumInt (l : List Int) : Int := l.foldr (· + ·) 0

/-- `m[k] += v`, initialising the bucket to zero when absent
(the source pattern `if idx not in m: m[idx] = 0; m[idx] += v`). -/
def bump (m : List (Int × Int)) (k : Int) (v : Int) :
    List (Int × Int) :=
  match m with
  | [] => [(k, v)]
  | (k1, x) :: rest =>
    if k1 = k then (k1, x + v) :: rest else (k1, x) :: bump rest k v

/-- Lookup in a time-keyed byte series, zero when the bucket is absent. -/
def lookup0 (m : List (Int × Int)) (k : Int) : Int :=
  match m with
  | [] => 0
  | (k1, x) :: rest => if k1 = k then x else lookup0 rest k

/-! ## Flow (`qppsim.Bearer.Bearer`) queue state and operations -/

/-- The queue-related state of a `Bearer`: the FIFO packet queue, the RLC
queue capacity in bytes, and the `loss` / `throughput` series. -/
structure BearerQ where
  queue : List Packet
  queueSize : Int
  loss : List (Int × Int)
  throughput : List (Int × Int)
  deriving Repr, DecidableEq

namespace BearerQ

/-- `Bearer.queue_used`: sum over queued packets of `size − tx_size`. -/
def queue_used (b : BearerQ) : Int :=
  sumInt (b.queue.map (fun p => p.size - p.txSize))

/-- `Bearer.pending_size`: sum over queued packets of the cached pending
count (bytes awaiting retransmission are not included). -/
def pending_size (b : BearerQ) : Int :=
  sumInt (b.queue.map Packet.pendingSize)

/-- `Bearer.add_packet`: append when `queue_used + packet.size` fits in
the RLC capacity, otherwise drop the packet and record its size in the
`loss` bucket for `now().nearest_second()`. -/
def add_packet (b : BearerQ) (pkt : Packet) (now : Int) : BearerQ :=
  if b.queue_used + pkt.size ≤ b.queueSize then
    { b with queue := b.queue ++ [pkt] }
  else
    { b with loss := bump b.loss (nearestSecond now) pkt.size }

/-- The queue walk of `Bearer.tx`: consume `amount` bytes front to back,
on the non-retry path deleting packets that reach `tx_size == size` and
recording their delivery event at `now + TX_DELAY`.  Returns the new
queue, the total throughput credited this call, and the delivery events
(pid, delivery time) in schedule order. -/
def txGo (now : Int) (rtx : Bool) :
    Int → List Packet → List Packet × Int × List (Nat × Int)
  | _, [] => ([], 0, [])
  | amount, p :: rest =>
    if amount ≤ 0 then (p :: rest, 0, []) else
      let r := p.transmitBytes amount rtx
      if rtx then
        let rec1 := txGo now rtx (amount - r.1) rest
        (r.2 :: rec1.1, rec1.2.1, rec1.2.2)
      else if r.2.txSize = r.2.size then
        let rec1 := txGo now rtx (amount - r.1) rest
        (rec1.1, r.1 + rec1.2.1, (r.2.pid, now + TX_DELAY) :: rec1.2.2)
      else
        let rec1 := txGo now rtx (amount - r.1) rest
        (r.2 :: rec1.1, r.1 + rec1.2.1, rec1.2.2)

/-- `Bearer.tx`: walk the queue with `txGo`; on the non-retry path the
bytes transmitted are credited to the `throughput` bucket of the current
second (the source updates the bucket once per packet inside the loop;
all updates hit the same `nearest_second(now)` bucket, so the total is
credited in one `bump` here). -/
def tx (b : BearerQ) (amount : Int) (rtx : Bool) (now : Int) :
    BearerQ × List (Nat × Int) :=
  let r := txGo now rtx amount b.queue
  ({ b with queue := r.1,
            throughput := if rtx then b.throughput
                          else bump b.throughput (nearestSecond now) r.2.1 },
   r.2.2)

/-- The queue walk of `Bearer.rtx`: move `amount` bytes from
awaiting-retry to transmitted, deleting completed packets and recording
their delivery events. -/
def rtxGo (now : Int) :
    Int → List Packet → List Packet × List (Nat × Int)
  | _, [] => ([], [])
  | amount, p :: rest =>
    if amount ≤ 0 then (p :: rest, []) else
      let r := p.retransmitBytes amount
      if r.2.txSize = r.2.size then
        let rec1 := rtxGo now (amount - r.1) rest
        (rec1.1, (r.2.pid, now + TX_DELAY) :: rec1.2)
      else
        let rec1 := rtxGo now (amount - r.1) rest
        (r.2 :: rec1.1, rec1.2)

/-- `Bearer.rtx`: walk the queue with `rtxGo` and credit the whole
`amount` (not just the bytes actually consumed) to the `throughput`
bucket of the current second, as the source does after its loop. -/
def rtxOp (b : BearerQ) (amount : Int) (now : Int) :
    BearerQ × List (Nat × Int) :=
  let r := rtxGo now amount b.queue
  ({ b with queue := r.1,
            throughput := bump b.throughput (nearestSecond now) amount },
   r.2)

end BearerQ

/-! ## Terminal (`qppsim.Ue.Ue`) dedicated-flow attachment -/

/-- The counters of a `Ue` that govern dedicated-bearer attachment:
`_bearer_count` counts active dedicated bearers, `_next_port` the next
application port, `_last_bid` the bearer-id counter. -/
structure UeState where
  imsi : Nat
  bearerCount : Nat
  nextPort : Nat
  lastBid : Nat
  deriving Repr, DecidableEq

/-- `Ue.add_bearer`: the source asserts `next_port < (imsi + 1) * 100`
and `bearer_count < 11`, then asks the bearer list for a dedicated
bearer (`admitted` is the admission outcome of that call); on admission
it advances the port and the dedicated count.  The returned flag tells
whether a bearer was added. -/
def Ue.add_bearer (u : UeState) (admitted : Bool) :
    Except String (UeState × Bool) :=
  if ¬ u.nextPort < (u.imsi + 1) * 100 then
    Except.error "Too many applications configured"
  else if ¬ u.bearerCount < 11 then
    Except.error "Cannot add dedicated bearer"
  else if admitted then
    Except.ok ({ u with nextPort := u.nextPort + 1,
                        bearerCount := u.bearerCount + 1 }, true)
  else
    Except.ok (u, false)

/-! ## Pre-emption (`qppsim.preemption.PreemptionSamplePreemptAll`) -/

/-- The bearer attributes read by the pre-emption policies. -/
structure PBearer where
  imsi : Nat
  bid : Nat
  qci : Nat
  gbr : Nat
  arp : Nat
  mcs : Nat
  pvi : Bool
  pci : Bool
  deriving Repr, DecidableEq

/-- The candidate filter of both pre-emption entry points:
`bearer.pvi and bearer.qci < 5 and bearer.arp > new_bearer_arp`. -/
def preemptEligible (newArp : Nat) (b : PBearer) : Bool :=
  b.pvi && decide (b.qci < 5) && decide (newArp < b.arp)

/-- `PreemptionSamplePreemptAll.attempt_preemption`: victimise every
eligible bearer; success iff `rbs_used − Σ victim_rbs + rbs_needed`
does not exceed the literal `50000`; on failure the victim list is
cleared.  `rbsForRate` is the AMC oracle `get_rbs_for_rate(mcs, gbr)`
count (the source reads component `[1]` of its result). -/
def attempt_preemption (rbsForRate : Nat → Nat → Int)
    (bearers : List PBearer) (newArp : Nat)
    (rbsNeeded rbsUsed : Int) : Bool × List PBearer :=
  let candidates := bearers.filter (preemptEligible newArp)
  let currentRbsUsed :=
    candidates.foldl (fun acc b => acc - rbsForRate b.mcs b.gbr) rbsUsed
  let success := decide (currentRbsUsed + rbsNeeded ≤ 50000)
  (success, if success then candidates else [])

/-- Modelled from the spec: the success budget of §4.7, success iff
`rbs_used − Σ victim_rbs + rbs_needed ≤ num_rbs · 1000`, to be compared
with what `attempt_preemption` computes. -/
def attemptPreemptionSpecSuccess (numRbs : Nat) (victimRbsSum : Int)
    (rbsNeeded rbsUsed : Int) : Prop :=
  rbsUsed - victimRbsSum + rbsNeeded ≤ (numRbs : Int) * 1000

/-! ## Admission control (`qppsim.accesscontrol.AccessControlTraceOnly`) -/

/-- The admission-trace records written by the modification check of the trace-only
policy. -/
inductive ArpTrace where
  | modificationCheck (imsi : Nat) (neededOldRbs neededNewRbs usedRbs : Int)
      (oldQci oldGbr newQci newGbr arp : Int) (pvi pci : Bool)
  | modificationResult (imsi : Nat) (verdict : String)
      (neededOldRbs neededNewRbs usedRbs : Int)
      (newQci newGbr arp : Int) (pvi pci : Bool)
  deriving Repr, DecidableEq

/-- `AccessControlTraceOnly.check_bearer_modification`: writes the check
record and an "ACCEPT" result record, then falls off the end of the
function, so the Python return value is `None` (modelled as `none`).
`neededRbs`/`usedRbs` stand for the base-class AMC computations
`get_needed_gbr_rbs` / `get_used_gbr_rbs`. -/
def checkBearerModificationTraceOnly
    (neededRbs : Int → Nat → Int → Int) (usedRbs : Int)
    (oldGbr oldQci newGbr newQci arp : Int) (pvi pci : Bool)
    (imsi mcs : Nat) : List ArpTrace × Option Bool :=
  let neededOld := neededRbs oldGbr mcs oldQci
  let neededNew := neededRbs newGbr mcs newQci
  ([ArpTrace.modificationCheck imsi neededOld neededNew usedRbs
      oldQci oldGbr newQci newGbr arp pvi pci,
    ArpTrace.modificationResult imsi "ACCEPT" neededOld neededNew usedRbs
      newQci newGbr arp pvi pci],
   none)

/-- Python truthiness of an optional boolean: `None` is falsy. -/
def pyTruthy : Option Bool → Bool
  | none => false
  | some b => b

/-- `Bearer.modify_qos` restricted to its QoS fields: the policy result
(`success`) gates the update through Python truthiness (`if success:`);
on a truthy result the QCI/GBR/MBR triple is replaced, otherwise it is
left unchanged.  Returns the new triple and the policy result, which the
method passes back to its caller. -/
def Bearer.modify_qos (qci gbr mbr : Int) (policyResult : Option Bool)
    (newQci newGbr newMbr : Int) : (Int × Int × Int) × Option Bool :=
  if pyTruthy policyResult then ((newQci, newGbr, newMbr), policyResult)
  else ((qci, gbr, mbr), policyResult)

/-! ## Application re-binding (`qppsim.Application.change_bearer`) -/

/-- The identity of a bearer as compared by `Bearer.__eq__`: owning
IMSI of the owning terminal and bearer id.  The default bearer of a terminal is the
bearer with bid 1 (the first bid handed out by `Ue.get_bid`, consumed by
the default bearer created in `Ue.__init__`). -/
structure BearerRef where
  imsi : Nat
  bid : Nat
  deriving Repr, DecidableEq

/-- `Bearer.teardown`: asserts the bearer is not the default
bearer of its terminal (`self != self.ue.default_bearer`, i.e. `bid = 1` for the
own terminal of the bearer), then removes it from the registry and re-binds
its applications.  Only the assertion outcome matters here. -/
def Bearer.teardown (b : BearerRef) : Except String Unit :=
  if b.bid = 1 then Except.error "Cannot tear down the default bearer!"
  else Except.ok ()

/-- `Application.change_bearer`: asserts the new bearer belongs to the
same terminal; when the currently bound bearer has bid 1 it calls
`teardown()` on it before re-binding; returns the bearer the application
is bound to afterwards. -/
def Application.change_bearer (cur new : BearerRef) :
    Except String BearerRef :=
  if cur.imsi ≠ new.imsi then
    Except.error "Attempting to change to a bearer of a different UE"
  else if cur.bid = 1 then
    match Bearer.teardown cur with
    | Except.error e => Except.error e
    | Except.ok _ => Except.ok new
  else Except.ok new

/-! ## Application packet generation (`qppsim.Application.generate_packet`) -/

/-- The application state read and written by `generate_packet`:
the `_active` flag, the stop time, and the two session counters. -/
structure AppState where
  active : Bool
  stopTime : Int
  countPacketsSession : Int
  packetsCurrentSession : Int
  deriving Repr, DecidableEq

/-- The externally visible effects of one `generate_packet` dispatch:
the TX traffic-trace records written (application-payload size and pid,
as traced before the overhead is added), the time of the follow-up
generation event scheduled on the engine, and whether a packet id was
drawn from the engine counter. -/
structure GenEffects where
  txTraces : List (Int × Nat)
  scheduledAt : Option Int
  pidConsumed : Bool
  deriving Repr, DecidableEq

/-- `Application.generate_packet`.  The pseudo-random draws of the active
branch are passed in as oracle values: `sizeDraw` for the packet size,
`intervalDraw` / `sessionIntervalDraw` for the next-event delay in
milliseconds, `nextSessionLen` for the redrawn packets-per-session.
`bearer` is the bound flow (`none` raises through `NoBearerException`).
Outside the active window (flag cleared, or `now` past the stop time)
the source does nothing at all. -/
def Application.generate_packet (a : AppState) (bearer : Option BearerQ)
    (now : Int) (pid : Nat) (sizeDraw : Int)
    (intervalDraw sessionIntervalDraw : Int) (nextSessionLen : Int) :
    Except String (AppState × Option BearerQ × GenEffects) :=
  if a.active then
    if now ≤ a.stopTime then
      match bearer with
      | none => Except.error "NoBearerException"
      | some bq =>
        let pkt0 := Packet.make pid sizeDraw now
        let traces := [(pkt0.size, pkt0.pid)]
        let pkt := pkt0.addOverhead NETWORK_OVERHEAD
        let bq1 := bq.add_packet pkt now
        let cnt := a.countPacketsSession + 1
        if cnt = a.packetsCurrentSession then
          Except.ok ({ a with countPacketsSession := 0,
                              packetsCurrentSession := nextSessionLen },
                     some bq1,
                     { txTraces := traces,
                       scheduledAt := some (now + sessionIntervalDraw),
                       pidConsumed := true })
        else
          Except.ok ({ a with countPacketsSession := cnt },
                     some bq1,
                     { txTraces := traces,
                       scheduledAt := some (now + intervalDraw),
                       pidConsumed := true })
    else
      Except.ok (a, bearer, { txTraces := [], scheduledAt := none,
                              pidConsumed := false })
  else
    Except.ok (a, bearer, { txTraces := [], scheduledAt := none,
                            pidConsumed := false })

/-! ## Scheduler (`qppsim.scheduler.SchedulerBase` / `SchedulerRoundRobin`)

The source stores retries in nested dictionaries
`rtx_pending[time][ue][bid] = list of (rbs, tbs, attempt)` and iterates
them in insertion order; here each due time maps to the flat list of its
entries in that iteration order, each entry carrying its `(ue, bid)`
key.  The shared uniform RNG behind `Des.get_tx_success` is modelled as
a boolean oracle `coin : Nat → Bool` (`true` = transmission success)
consumed at an explicit index. -/

/-- One element of a `rtx_pending[time][ue][bid]` list, tagged with its
terminal and bearer key. -/
structure RtxEntry where
  ue : Nat
  bid : Nat
  rbs : Nat
  tbs : Nat
  attempt : Nat
  deriving Repr, DecidableEq

/-- `rtx_pending`: association list from due time to the entries due
then, keys unique. -/
abbrev RtxPending := List (Int × List RtxEntry)

/-- Entries due at time `t` (empty when `t` is not a key). -/
def lookupRtx : RtxPending → Int → List RtxEntry
  | [], _ => []
  | (k, es) :: rest, t => if k = t then es else lookupRtx rest t

/-- Append one entry to the list at key `t`, creating the key when
absent (the nested-dictionary initialisation of `SchedulerBase.rtx`). -/
def rtxAppend : RtxPending → Int → RtxEntry → RtxPending
  | [], t, e => [(t, [e])]
  | (k, es) :: rest, t, e =>
    if k = t then (k, es ++ [e]) :: rest else (k, es) :: rtxAppend rest t e

/-- `del rtx_pending[t]`. -/
def eraseRtx (m : RtxPending) (t : Int) : RtxPending :=
  m.filter (fun p => ¬ p.1 = t)

/-- `SchedulerBase.rtx`: enqueue `(rbs, tbs, num_rtx + 1)` at
`current_time + RTX_DELAY` under the terminal and bearer of the entry. -/
def SchedulerBase.rtx (m : RtxPending) (currentTime : Int)
    (ue bid rbs tbs numRtx : Nat) : RtxPending :=
  rtxAppend m (currentTime + RTX_DELAY)
    { ue := ue, bid := bid, rbs := rbs, tbs := tbs, attempt := numRtx + 1 }

/-- Result of `SchedulerBase.process_retransmissions`: RBs consumed by
the retries processed, the updated `rtx_pending`, the next RNG index,
and the successful drains `(ue, bid, tbs)` handed to `tx_from_rtx` in
order. -/
structure RtxResult where
  used : Nat
  pending : RtxPending
  coinIdx : Nat
  drains : List (Nat × Nat × Nat)
  deriving Repr, DecidableEq

/-- The entry loop of `process_retransmissions`: pop each due entry,
charge its `rbs`; at attempt 4 success is forced (no RNG draw),
otherwise draw the RNG and on failure re-enqueue through
`SchedulerBase.rtx` with the attempt counter incremented. -/
def processEntries (t : Int) (coin : Nat → Bool) :
    List RtxEntry → RtxPending → Nat → Nat → List (Nat × Nat × Nat) →
    RtxResult
  | [], m, i, used, ds =>
    { used := used, pending := m, coinIdx := i, drains := ds }
  | e :: es, m, i, used, ds =>
    if e.attempt = 4 then
      processEntries t coin es m i (used + e.rbs)
        (ds ++ [(e.ue, e.bid, e.tbs)])
    else if coin i then
      processEntries t coin es m (i + 1) (used + e.rbs)
        (ds ++ [(e.ue, e.bid, e.tbs)])
    else
      processEntries t coin es
        (SchedulerBase.rtx m t e.ue e.bid e.rbs e.tbs e.attempt)
        (i + 1) (used + e.rbs) ds

/-- `SchedulerBase.process_retransmissions`: process every entry due at
`current_time` and delete that key. -/
def process_retransmissions (t : Int) (m : RtxPending)
    (coin : Nat → Bool) (i : Nat) : RtxResult :=
  let r := processEntries t coin (lookupRtx m t) m i 0 []
  { r with pending := eraseRtx r.pending t }

/-- A row of the flow registry as read by the round-robin allocation
loop: terminal, bearer id, `pending_size()` and the MCS of the terminal. -/
structure AllocB where
  ue : Nat
  bid : Nat
  pending : Int
  mcs : Nat
  deriving Repr, DecidableEq

/-- `TBS_FOR_MCS[mcs][n]` for an allocation of `n` RBs as used inside
the round-robin loop: zero RBs allocated so far means `bytes_out = 0`
(the bearer is then absent from the `allocations` dictionaries). -/
def bytesOut (tbsOf : Nat → Nat → Int) (mcs n : Nat) : Int :=
  if n = 0 then 0 else tbsOf mcs n

/-- The `while available_rbs > 0` loop of `SchedulerRoundRobin.schedule`,
translated over the flat registry order (terminals by IMSI, then bearer
ids; the nested two-cursor stepping of the source walks exactly this
flat cyclic order).  `alloc` holds the per-flow RB counts (the
`allocations` dictionaries), `idx` the cursor, `last` the last flow
allocated to.  The loop allocates one RB to the flow under the cursor
when its pending bytes exceed the bytes already promised to it, and
stops when the budget is exhausted or a full revolution reaches `last`
with nothing left to allocate; `fuel` bounds the iterations (the source
loop terminates by the revolution check; every theorem below holds for
every fuel). -/
def rrLoop (tbsOf : Nat → Nat → Int) (bs : List AllocB) :
    Nat → List Nat → Nat → Nat → Int → List Nat
  | 0, alloc, _, _, _ => alloc
  | fuel + 1, alloc, idx, last, available =>
    if available ≤ 0 then alloc
    else if bs.length = 0 then alloc
    else
      let i := idx % bs.length
      let b := bs.getD i { ue := 0, bid := 0, pending := 0, mcs := 0 }
      let cur := alloc.getD i 0
      if b.pending - bytesOut tbsOf b.mcs cur > 0 then
        let alloc1 := alloc.set i (cur + 1)
        let i1 := (i + 1) % bs.length
        if i1 = i then
          -- a single flow: the revolution check compares against `last = i`
          let b2 := bs.getD i1 { ue := 0, bid := 0, pending := 0, mcs := 0 }
          if b2.pending - bytesOut tbsOf b2.mcs (alloc1.getD i1 0) ≤ 0 then
            alloc1
          else rrLoop tbsOf bs fuel alloc1 i1 i (available - 1)
        else rrLoop tbsOf bs fuel alloc1 i1 i (available - 1)
      else
        let i1 := (i + 1) % bs.length
        if i1 = last then
          let b2 := bs.getD i1 { ue := 0, bid := 0, pending := 0, mcs := 0 }
          if b2.pending - bytesOut tbsOf b2.mcs (alloc.getD i1 0) ≤ 0 then
            alloc
          else rrLoop tbsOf bs fuel alloc i1 last available
        else rrLoop tbsOf bs fuel alloc i1 last available

/-- `SchedulerBase.process_allocations`: for each flow granted RBs this
interval, draw the RNG; a failed fresh transmission is enqueued for
retry at `now + RTX_DELAY` with attempt count 1 (via
`SchedulerBase.rtx` with `num_rtx = 0`).  Entries with zero granted RBs
are not in the source dictionaries and draw nothing. -/
def process_allocations (t : Int) (coin : Nat → Bool)
    (tbsOf : Nat → Nat → Int) :
    List (AllocB × Nat) → RtxPending → Nat → RtxPending × Nat
  | [], m, i => (m, i)
  | (b, n) :: rest, m, i =>
    if n = 0 then process_allocations t coin tbsOf rest m i
    else if coin i then process_allocations t coin tbsOf rest m (i + 1)
    else
      process_allocations t coin tbsOf rest
        (SchedulerBase.rtx m t b.ue b.bid n
          (Int.toNat (tbsOf b.mcs n)) 0)
        (i + 1)

/-- The scheduler state carried across 1 ms intervals: the retry map and
the RNG cursor. -/
structure SchedState where
  pending : RtxPending
  coinIdx : Nat
  deriving Repr, DecidableEq

/-- The RB consumption observed in one interval: RBs consumed by
processed retries, and RBs granted to fresh allocations. -/
structure TickObs where
  usedRtx : Nat
  fresh : Nat
  deriving Repr, DecidableEq

/-- Total RBs granted by an allocation vector. -/
def sumNat (l : List Nat) : Nat := l.foldr (· + ·) 0

/-- One `SchedulerRoundRobin.schedule` dispatch at time `t`, restricted
to its RB bookkeeping: process the retries due now, allocate
`num_rbs − used_rbs` fresh RBs round-robin over the current registry
rows `bs` starting at cursor `startIdx`, then resolve the fresh
allocations.  Registry contents and cursor are inputs because bearers
are created and torn down between intervals by admission, pre-emption
and teardown events. -/
def schedTick (numRbs : Nat) (tbsOf : Nat → Nat → Int)
    (coin : Nat → Bool) (t : Int) (st : SchedState)
    (bs : List AllocB) (startIdx : Nat) : SchedState × TickObs :=
  let r := process_retransmissions t st.pending coin st.coinIdx
  let available : Int := (numRbs : Int) - (r.used : Int)
  let fuel := Int.toNat available * (bs.length + 1) + bs.length + 1
  let alloc := rrLoop tbsOf bs fuel (List.replicate bs.length 0)
      startIdx startIdx available
  let pa := process_allocations t coin tbsOf (bs.zip alloc) r.pending
      r.coinIdx
  ({ pending := pa.1, coinIdx := pa.2 },
   { usedRtx := r.used, fresh := sumNat alloc })

/-- The scheduler trajectory: the scheduler re-enqueues itself every
millisecond, so the `n`-th dispatch runs at `t0 + n`; `bsSeq` and
`idxSeq` give the registry rows and resume cursor seen at each
dispatch.  The initial state has an empty retry map. -/
def runSched (numRbs : Nat) (tbsOf : Nat → Nat → Int)
    (coin : Nat → Bool) (t0 : Int) (bsSeq : Nat → List AllocB)
    (idxSeq : Nat → Nat) : Nat → SchedState
  | 0 => { pending := [], coinIdx := 0 }
  | n + 1 =>
    (schedTick numRbs tbsOf coin (t0 + n)
      (runSched numRbs tbsOf coin t0 bsSeq idxSeq n)
      (bsSeq n) (idxSeq n)).1

/-- The RB consumption observed in the `n`-th interval of the
trajectory. -/
def obsAt (numRbs : Nat) (tbsOf : Nat → Nat → Int)
    (coin : Nat → Bool) (t0 : Int) (bsSeq : Nat → List AllocB)
    (idxSeq : Nat → Nat) (n : Nat) : TickObs :=
  (schedTick numRbs tbsOf coin (t0 + n)
    (runSched numRbs tbsOf coin t0 bsSeq idxSeq n)
    (bsSeq n) (idxSeq n)).2

/-! ## Spec-side helper functions over the scheduler state

These recursive functions describe, for a list of due retry entries and
a starting RNG index, the observable outcomes of processing it: total
RBs charged, RNG draws made, entries drained, entries re-enqueued.  They
are the vocabulary of the HARQ theorems below. -/

/-- Total RBs carried by a list of retry entries. -/
def rbsList : List RtxEntry → Nat
  | [] => 0
  | e :: es => e.rbs + rbsList es

/-- Total RBs pending retry at time `k`. -/
def rbsAt (m : RtxPending) (k : Int) : Nat :=
  rbsList (lookupRtx m k)

/-- RNG draws made while processing a due list: one per entry except the
forced-success entries at attempt 4. -/
def coinsUsed : List RtxEntry → Nat
  | [] => 0
  | e :: es => (if e.attempt = 4 then 0 else 1) + coinsUsed es

/-- The entries of a due list whose retry fails again, with their
attempt counters incremented, in processing order; the RNG index
advances over every non-forced entry. -/
def failedOf (coin : Nat → Bool) : List RtxEntry → Nat → List RtxEntry
  | [], _ => []
  | e :: es, i =>
    if e.attempt = 4 then failedOf coin es i
    else if coin i then failedOf coin es (i + 1)
    else { e with attempt := e.attempt + 1 } :: failedOf coin es (i + 1)

/-- The `(ue, bid, tbs)` drains produced while processing a due list:
forced successes at attempt 4 and successful RNG draws. -/
def drainsOf (coin : Nat → Bool) :
    List RtxEntry → Nat → List (Nat × Nat × Nat)
  | [], _ => []
  | e :: es, i =>
    if e.attempt = 4 then (e.ue, e.bid, e.tbs) :: drainsOf coin es i
    else if coin i then (e.ue, e.bid, e.tbs) :: drainsOf coin es (i + 1)
    else drainsOf coin es (i + 1)

/-- The inductive invariant of the scheduler trajectory: no future due
time holds more than `num_rbs` worth of retry RBs, and nothing is
pending at or beyond `t + RTX_DELAY` (entries for that time are only
created by the dispatch at `t`). -/
def SchedInv (numRbs : Nat) (t : Int) (m : RtxPending) : Prop :=
  (∀ k, rbsAt m k ≤ numRbs) ∧
  (∀ k, t + RTX_DELAY ≤ k → rbsAt m k = 0)

/-! ## General lemmas about the embedded data structures -/

theorem sumInt_cons (x : Int) (l : List Int) :
    sumInt (x :: l) = x + sumInt l := rfl

theorem queue_used_split (q : List Packet) (h : ∀ p ∈ q, wfPacket p) :
    sumInt (q.map (fun p => p.size - p.txSize)) =
      sumInt (q.map Packet.pendingSize) +
      sumInt (q.map Packet.rtxWaitingSize) := by
  induction q with
  | nil => simp [sumInt]
  | cons p rest ih =>
    have hp := h p (List.mem_cons_self p rest)
    have hrest := ih (fun x hx => h x (List.mem_cons_of_mem p hx))
    obtain ⟨_, _, _, h4⟩ := hp
    simp only [List.map_cons, sumInt_cons, hrest, Packet.pendingSize]
    omega

theorem sumInt_append (l1 l2 : List Int) :
    sumInt (l1 ++ l2) = sumInt l1 + sumInt l2 := by
  induction l1 with
  | nil => simp [sumInt]
  | cons x rest ih => simp only [List.cons_append, sumInt_cons, ih]; ring

theorem sumInt_nil : sumInt [] = 0 := rfl

theorem lookup0_bump (m : List (Int × Int)) (k kq : Int) (v : Int) :
    lookup0 (bump m k v) kq
      = lookup0 m kq + (if kq = k then v else 0) := by
  induction m with
  | nil =>
    by_cases h : kq = k
    · subst h; simp [bump, lookup0]
    · have h2 : ¬ k = kq := fun hh => h hh.symm
      simp [bump, lookup0, h, h2]
  | cons hd rest ih =>
    obtain ⟨k2, x⟩ := hd
    by_cases h2 : k2 = k
    · subst h2
      by_cases hq : k2 = kq
      · subst hq; simp [bump, lookup0]
      · have hq2 : ¬ kq = k2 := fun hh => hq hh.symm
        simp [bump, lookup0, hq, hq2]
    · by_cases hq : k2 = kq
      · subst hq
        simp [bump, lookup0, h2]
      · simp [bump, lookup0, h2, hq, ih]

/-- Component facts about `Packet.transmit_bytes` used by the queue-walk
lemmas: the consumed amount is between 0 and `amount`, well-formedness
is preserved, and the `size − tx_size` contribution to `queue_used`
drops by the consumed amount on the non-retry path and is unchanged on
the retry path. -/
theorem transmitBytes_bounds (p : Packet) (amt : Int) (rtx : Bool)
    (hw : wfPacket p) (ha : 0 < amt) :
    0 ≤ (p.transmitBytes amt rtx).1 ∧
    (p.transmitBytes amt rtx).1 ≤ amt ∧
    wfPacket (p.transmitBytes amt rtx).2 ∧
    (p.transmitBytes amt rtx).2.size - (p.transmitBytes amt rtx).2.txSize
      = p.size - p.txSize -
          (if rtx then 0 else (p.transmitBytes amt rtx).1) := by
  obtain ⟨h1, h2, h3, h4⟩ := hw
  simp only [Packet.transmitBytes, Packet.pendingSize, Packet.setTxSize,
    Packet.setRtxWaitingSize, wfPacket]
  cases rtx <;> split_ifs <;> simp_all <;> omega

/-- Component facts about `Packet.retransmit_bytes`: the consumed amount
is between 0 and `amount`, well-formedness is preserved, and the
`size − tx_size` contribution drops by the consumed amount. -/
theorem retransmitBytes_bounds (p : Packet) (amt : Int)
    (hw : wfPacket p) (ha : 0 < amt) :
    0 ≤ (p.retransmitBytes amt).1 ∧
    (p.retransmitBytes amt).1 ≤ amt ∧
    wfPacket (p.retransmitBytes amt).2 ∧
    (p.retransmitBytes amt).2.size - (p.retransmitBytes amt).2.txSize
      = p.size - p.txSize - (p.retransmitBytes amt).1 := by
  obtain ⟨h1, h2, h3, h4⟩ := hw
  simp only [Packet.retransmitBytes, Packet.setTxSize,
    Packet.setRtxWaitingSize, wfPacket]
  split_ifs <;> simp_all <;> omega

/-- The queue walk of `Bearer.tx` never increases the occupied queue
size `Σ (size − tx_size)`. -/
theorem txGo_queue_used (now : Int) (rtx : Bool) :
    ∀ (q : List Packet) (amt : Int), (∀ p ∈ q, wfPacket p) →
      sumInt ((BearerQ.txGo now rtx amt q).1.map
          (fun p => p.size - p.txSize))
        ≤ sumInt (q.map (fun p => p.size - p.txSize)) := by
  intro q
  induction q with
  | nil => intro amt h; simp [BearerQ.txGo, sumInt]
  | cons p rest ih =>
    intro amt h
    have hp := h p (List.mem_cons_self p rest)
    have hrest : ∀ x ∈ rest, wfPacket x :=
      fun x hx => h x (List.mem_cons_of_mem p hx)
    by_cases h0 : amt ≤ 0
    · simp [BearerQ.txGo, h0]
    · have hb := transmitBytes_bounds p amt rtx hp (by omega)
      have ihr := ih (amt - (p.transmitBytes amt rtx).1) hrest
      have hsz : 0 ≤ p.size - p.txSize := by
        obtain ⟨u1, u2, u3, u4⟩ := hp; omega
      simp only [BearerQ.txGo, h0, if_false]
      cases rtx with
      | false =>
        by_cases hc : (p.transmitBytes amt false).2.txSize
            = (p.transmitBytes amt false).2.size
        · simp only [Bool.false_eq_true, if_false, hc, if_true,
            List.map_cons, sumInt_cons]
          obtain ⟨b1, b2, b3, b4⟩ := hb
          simp only [if_neg (Bool.false_ne_true)] at b4
          omega
        · simp only [Bool.false_eq_true, if_false, hc, if_true,
            List.map_cons, sumInt_cons]
          obtain ⟨b1, b2, b3, b4⟩ := hb
          simp only [if_neg (Bool.false_ne_true)] at b4
          omega
      | true =>
        simp only [if_true, List.map_cons, sumInt_cons]
        obtain ⟨b1, b2, b3, b4⟩ := hb
        simp only [if_pos rfl] at b4
        omega

/-- The queue walk of `Bearer.rtx` never increases the occupied queue
size `Σ (size − tx_size)`. -/
theorem rtxGo_queue_used (now : Int) :
    ∀ (q : List Packet) (amt : Int), (∀ p ∈ q, wfPacket p) →
      sumInt ((BearerQ.rtxGo now amt q).1.map
          (fun p => p.size - p.txSize))
        ≤ sumInt (q.map (fun p => p.size - p.txSize)) := by
  intro q
  induction q with
  | nil => intro amt h; simp [BearerQ.rtxGo, sumInt]
  | cons p rest ih =>
    intro amt h
    have hp := h p (List.mem_cons_self p rest)
    have hrest : ∀ x ∈ rest, wfPacket x :=
      fun x hx => h x (List.mem_cons_of_mem p hx)
    by_cases h0 : amt ≤ 0
    · simp [BearerQ.rtxGo, h0]
    · have hb := retransmitBytes_bounds p amt hp (by omega)
      have ihr := ih (amt - (p.retransmitBytes amt).1) hrest
      have hsz : 0 ≤ p.size - p.txSize := by
        obtain ⟨u1, u2, u3, u4⟩ := hp; omega
      obtain ⟨b1, b2, b3, b4⟩ := hb
      simp only [BearerQ.rtxGo, h0, if_false]
      by_cases hc : (p.retransmitBytes amt).2.txSize
          = (p.retransmitBytes amt).2.size
      · simp only [hc, if_true, List.map_cons, sumInt_cons]
        omega
      · simp only [hc, if_false, List.map_cons, sumInt_cons]
        omega

/-! ## C4 — enqueue admission and loss recording -/

/-- C4 counterexample.  The claim places the loss of a dropped packet in
the bucket for `now` floored to the containing second; the code uses
`Time.nearest_second`, which is Python `round(ms, -3)`.  Dropping a
780-byte packet at `now = 1600 ms` records the loss in bucket 2000,
while the floor bucket 1000 stays empty. -/
theorem loss_bucket_rounding_counterexample :
    (BearerQ.add_packet
        { queue := [], queueSize := 100, loss := [], throughput := [] }
        ((Packet.make 1 750 0).addOverhead 30) 1600).loss
      = [(2000, 780)] ∧
    lookup0 (BearerQ.add_packet
        { queue := [], queueSize := 100, loss := [], throughput := [] }
        ((Packet.make 1 750 0).addOverhead 30) 1600).loss
        (floorSecond 1600) = 0 ∧
    floorSecond 1600 = 1000 := by
  decide

/-- C4 (amended): `add_packet` appends exactly when
`queue_used + packet.size ≤ queue_capacity`; otherwise the queue is
unchanged and the full overhead-inflated size is added exactly once to
the loss series — in the bucket for `now` rounded to the nearest second
(Python `round(ms, -3)`, ties to even), not floored.  Consequently
`queue_used ≤ queue_capacity` is preserved by `add_packet`, and the
transmit walks never increase `queue_used`. -/
theorem enqueue_guard_amended :
    ∀ (b : BearerQ) (pkt : Packet) (now : Int),
      (b.queue_used + pkt.size ≤ b.queueSize →
        b.add_packet pkt now = { b with queue := b.queue ++ [pkt] }) ∧
      (¬ b.queue_used + pkt.size ≤ b.queueSize →
        (b.add_packet pkt now).queue = b.queue ∧
        lookup0 (b.add_packet pkt now).loss (nearestSecond now)
          = lookup0 b.loss (nearestSecond now) + pkt.size ∧
        (∀ k, ¬ k = nearestSecond now →
          lookup0 (b.add_packet pkt now).loss k = lookup0 b.loss k)) ∧
      (0 ≤ pkt.txSize → b.queue_used ≤ b.queueSize →
        (b.add_packet pkt now).queue_used ≤ b.queueSize) ∧
      (∀ amt rtx, (∀ p ∈ b.queue, wfPacket p) →
        (b.tx amt rtx now).1.queue_used ≤ b.queue_used) ∧
      (∀ amt, (∀ p ∈ b.queue, wfPacket p) →
        (b.rtxOp amt now).1.queue_used ≤ b.queue_used) := by
  intro b pkt now
  refine ⟨?_, ?_, ?_, ?_, ?_⟩
  · intro hg
    simp [BearerQ.add_packet, hg]
  · intro hg
    refine ⟨?_, ?_, ?_⟩
    · simp [BearerQ.add_packet, hg]
    · simp [BearerQ.add_packet, hg, lookup0_bump]
    · intro k hk
      simp [BearerQ.add_packet, hg, lookup0_bump, hk]
  · intro htx hused
    by_cases hg : b.queue_used + pkt.size ≤ b.queueSize
    · simp only [BearerQ.add_packet, hg, if_true]
      simp only [BearerQ.queue_used, List.map_append, sumInt_append,
        List.map_cons, List.map_nil, sumInt_cons, sumInt_nil]
        at hused hg ⊢
      omega
    · simp only [BearerQ.add_packet, hg, if_false]
      exact hused
  · intro amt rtx hwq
    simpa [BearerQ.tx, BearerQ.queue_used]
      using txGo_queue_used now rtx b.queue amt hwq
  · intro amt hwq
    simpa [BearerQ.rtxOp, BearerQ.queue_used]
      using rtxGo_queue_used now b.queue amt hwq

/-- C4 witness: the amended enqueue behaviour on concrete inputs, one
per branch of the guard. -/
theorem enqueue_guard_amended_witness :
    BearerQ.add_packet
        { queue := [], queueSize := 10000, loss := [], throughput := [] }
        ((Packet.make 1 750 0).addOverhead 30) 0
      = { queue := [(Packet.make 1 750 0).addOverhead 30],
          queueSize := 10000, loss := [], throughput := [] } ∧
    lookup0 (BearerQ.add_packet
        { queue := [], queueSize := 100, loss := [], throughput := [] }
        ((Packet.make 1 750 0).addOverhead 30) 1600).loss
        (nearestSecond 1600)
      = lookup0 [] (nearestSecond 1600) + 780 :=
  ⟨(enqueue_guard_amended
      { queue := [], queueSize := 10000, loss := [], throughput := [] }
      ((Packet.make 1 750 0).addOverhead 30) 0).1 (by decide),
   ((enqueue_guard_amended
      { queue := [], queueSize := 100, loss := [], throughput := [] }
      ((Packet.make 1 750 0).addOverhead 30) 1600).2.1
      (by decide)).2.1⟩

/-! ## C6 — sample pre-empt-all policy -/

theorem foldl_sub_eq (f : PBearer → Int) :
    ∀ (l : List PBearer) (acc : Int),
      l.foldl (fun a b => a - f b) acc = acc - sumInt (l.map f) := by
  intro l
  induction l with
  | nil => intro acc; simp [sumInt]
  | cons hd tl ih =>
    intro acc
    simp only [List.foldl_cons, List.map_cons, sumInt_cons, ih]
    ring

/-- C6 counterexample.  The claim ties success to
`rbs_used − Σ victim_rbs + rbs_needed ≤ num_rbs · 1000`; the code
compares against the literal `50000`.  With `num_rbs = 10` and no
eligible victims, a request of 20000 RB-slots succeeds in the code
although the claimed budget `10 · 1000` is exceeded. -/
theorem preemption_budget_counterexample :
    (attempt_preemption (fun _ _ => 0) [] 3 20000 0).1 = true ∧
    ¬ attemptPreemptionSpecSuccess 10 0 20000 0 := by
  constructor
  · rfl
  · unfold attemptPreemptionSpecSuccess
    decide

/-- C6 (amended): `attempt_preemption` victimises exactly the flows with
`pvi` set, `qci < 5` and `arp` numerically greater than the new ARP;
it succeeds if and only if
`rbs_used − Σ victim_rbs + rbs_needed ≤ 50000` (the hard-coded constant
equal to `num_rbs · 1000` only for the default `num_rbs = 50`); and on
failure the victim list is empty. -/
theorem preemption_select_amended :
    ∀ (rbsForRate : Nat → Nat → Int) (bearers : List PBearer)
      (newArp : Nat) (rbsNeeded rbsUsed : Int),
      ((attempt_preemption rbsForRate bearers newArp rbsNeeded rbsUsed).1
          = true ↔
        rbsUsed - sumInt ((bearers.filter (preemptEligible newArp)).map
            (fun b => rbsForRate b.mcs b.gbr)) + rbsNeeded ≤ 50000) ∧
      (∀ b, b ∈ (attempt_preemption rbsForRate bearers newArp rbsNeeded
            rbsUsed).2 ↔
        ((attempt_preemption rbsForRate bearers newArp rbsNeeded
            rbsUsed).1 = true ∧
         b ∈ bearers ∧ preemptEligible newArp b = true)) ∧
      ((attempt_preemption rbsForRate bearers newArp rbsNeeded
          rbsUsed).1 = false →
        (attempt_preemption rbsForRate bearers newArp rbsNeeded
          rbsUsed).2 = []) := by
  intro rbsForRate bearers newArp rbsNeeded rbsUsed
  by_cases hs : rbsUsed - sumInt ((bearers.filter
      (preemptEligible newArp)).map (fun b => rbsForRate b.mcs b.gbr))
      + rbsNeeded ≤ 50000
  · refine ⟨?_, ?_, ?_⟩
    · simp [attempt_preemption, foldl_sub_eq, hs]
    · intro b
      simp [attempt_preemption, foldl_sub_eq, hs, List.mem_filter]
    · simp [attempt_preemption, foldl_sub_eq, hs]
  · refine ⟨?_, ?_, ?_⟩
    · simp [attempt_preemption, foldl_sub_eq, hs]
    · intro b
      simp [attempt_preemption, foldl_sub_eq, hs]
    · simp [attempt_preemption, foldl_sub_eq, hs]

/-! ## C3 — packet byte accounting -/

/-- C3 counterexample.  The claim asserts
`pending = size − tx_sent − tx_retry` also immediately after the
30-byte overhead is added at generation, and `tx_sent + tx_retry ≤ size`
also immediately after it is removed at delivery.  Both fail: a fresh
750-byte packet inflated by 30 bytes keeps its cached pending of 750
while `size − tx_sent − tx_retry = 780`, and a fully transmitted
780-byte packet deflated at delivery has `tx_sent = 780 > 750 = size`. -/
theorem packet_pending_overhead_counterexample :
    (¬ ((Packet.make 1 750 0).addOverhead 30).pending =
        ((Packet.make 1 750 0).addOverhead 30).size -
        ((Packet.make 1 750 0).addOverhead 30).txSize -
        ((Packet.make 1 750 0).addOverhead 30).rtxWaitingSize) ∧
    (¬ ((((Packet.make 2 780 0).transmitBytes 780 false).2.removeOverhead
            30).txSize +
        (((Packet.make 2 780 0).transmitBytes 780 false).2.removeOverhead
            30).rtxWaitingSize ≤
        (((Packet.make 2 780 0).transmitBytes 780 false).2.removeOverhead
            30).size)) := by
  decide

/-- C3 (amended): the invariants `pending = size − tx_sent − tx_retry`,
`tx_sent + tx_retry ≤ size`, `pending ≥ 0` hold at creation and are
preserved by the byte-accounting operations `transmit_bytes` and
`retransmit_bytes`; `add_overhead` and `remove_overhead` change `size`
without recomputing the cached pending, so immediately after the
overhead is added `pending = size − tx_sent − tx_retry − overhead`, and
immediately after a delivered (fully transmitted) packet is deflated
`tx_sent + tx_retry = size + overhead`. -/
theorem packet_accounting_amended :
    (∀ pid sz t, 0 < sz → wfPacket (Packet.make pid sz t)) ∧
    (∀ p amt rtx, wfPacket p → 0 ≤ amt →
       wfPacket (p.transmitBytes amt rtx).2) ∧
    (∀ p amt, wfPacket p → 0 ≤ amt →
       wfPacket (p.retransmitBytes amt).2) ∧
    (∀ p oh, wfPacket p →
       (p.addOverhead oh).pending =
         (p.addOverhead oh).size - (p.addOverhead oh).txSize -
           (p.addOverhead oh).rtxWaitingSize - oh) ∧
    (∀ p oh, wfPacket p → p.txSize = p.size →
       (p.removeOverhead oh).txSize + (p.removeOverhead oh).rtxWaitingSize
         = (p.removeOverhead oh).size + oh) := by
  refine ⟨?_, ?_, ?_, ?_, ?_⟩
  · intro pid sz t h
    simp only [Packet.make, wfPacket]
    omega
  · intro p amt rtx hw ha
    obtain ⟨h1, h2, h3, h4⟩ := hw
    simp only [Packet.transmitBytes, Packet.pendingSize, Packet.setTxSize,
      Packet.setRtxWaitingSize, wfPacket]
    split_ifs <;> simp_all <;> omega
  · intro p amt hw ha
    obtain ⟨h1, h2, h3, h4⟩ := hw
    simp only [Packet.retransmitBytes, Packet.setTxSize,
      Packet.setRtxWaitingSize, wfPacket]
    split_ifs <;> simp_all <;> omega
  · intro p oh hw
    obtain ⟨h1, h2, h3, h4⟩ := hw
    simp only [Packet.addOverhead]
    omega
  · intro p oh hw he
    obtain ⟨h1, h2, h3, h4⟩ := hw
    simp only [Packet.removeOverhead]
    omega

/-- C3 witness: the amended invariants evaluated on concrete packets. -/
theorem packet_accounting_amended_witness :
    wfPacket (Packet.make 1 750 0) ∧
    wfPacket ((Packet.make 1 750 0).transmitBytes 100 false).2 ∧
    wfPacket ((Packet.make 1 750 0).retransmitBytes 0).2 ∧
    ((Packet.make 1 750 0).addOverhead 30).pending =
      ((Packet.make 1 750 0).addOverhead 30).size -
      ((Packet.make 1 750 0).addOverhead 30).txSize -
      ((Packet.make 1 750 0).addOverhead 30).rtxWaitingSize - 30 ∧
    (((Packet.make 2 780 0).transmitBytes 780 false).2.removeOverhead
        30).txSize +
      (((Packet.make 2 780 0).transmitBytes 780 false).2.removeOverhead
        30).rtxWaitingSize =
      (((Packet.make 2 780 0).transmitBytes 780 false).2.removeOverhead
        30).size + 30 :=
  ⟨packet_accounting_amended.1 1 750 0 (by decide),
   packet_accounting_amended.2.1 (Packet.make 1 750 0) 100 false
     (by decide) (by decide),
   packet_accounting_amended.2.2.1 (Packet.make 1 750 0) 0
     (by decide) (by decide),
   packet_accounting_amended.2.2.2.1 (Packet.make 1 750 0) 30 (by decide),
   packet_accounting_amended.2.2.2.2
     ((Packet.make 2 780 0).transmitBytes 780 false).2 30
     (by decide) (by decide)⟩

/-! ## C5 — dedicated-flow limit -/

/-- C5: the code admits the 11th dedicated flow.  `Ue.add_bearer`
asserts `bearer_count < 11`, so a terminal that already has 10 active
dedicated flows attaches an 11th successfully; the precondition error
fires only when attaching a 12th. -/
theorem eleventh_dedicated_flow_admitted :
    Ue.add_bearer
        { imsi := 1, bearerCount := 10, nextPort := 100, lastBid := 11 }
        true
      = Except.ok
          ({ imsi := 1, bearerCount := 11, nextPort := 101, lastBid := 11 },
           true) ∧
    Ue.add_bearer
        { imsi := 1, bearerCount := 11, nextPort := 101, lastBid := 12 }
        true
      = Except.error "Cannot add dedicated bearer" :=
  ⟨rfl, rfl⟩

/-! ## C7 — trace-only modification check -/

/-- C7: `AccessControlTraceOnly.check_bearer_modification` writes the
check record and an "ACCEPT" result record, but its Python return value
is `None` (the function has no return statement), which is falsy; the
caller `Bearer.modify_qos` therefore leaves the QoS triple unchanged. -/
theorem trace_only_modification_returns_none :
    (checkBearerModificationTraceOnly (fun _ _ _ => 0) 0
        1000 3 500 2 5 true false 1 8).2 = none ∧
    pyTruthy (checkBearerModificationTraceOnly (fun _ _ _ => 0) 0
        1000 3 500 2 5 true false 1 8).2 = false ∧
    (checkBearerModificationTraceOnly (fun _ _ _ => 0) 0
        1000 3 500 2 5 true false 1 8).1
      = [ArpTrace.modificationCheck 1 0 0 0 3 1000 2 500 5 true false,
         ArpTrace.modificationResult 1 "ACCEPT" 0 0 0 2 500 5 true false] ∧
    (Bearer.modify_qos 3 1000 2000
        (checkBearerModificationTraceOnly (fun _ _ _ => 0) 0
          1000 3 500 2 5 true false 1 8).2
        2 500 600).1 = (3, 1000, 2000) := by
  decide

/-! ## C8 — re-binding an application -/

/-- C8: `Application.change_bearer` from the default flow fails.  When
the currently bound bearer has bid 1 the method calls `teardown()` on
it, and `Bearer.teardown` asserts the bearer is not the default bearer
of its terminal, so the re-bind dies on that assertion instead of
succeeding; from a dedicated bearer the re-bind succeeds (without any
teardown of the old bearer). -/
theorem change_bearer_default_teardown_error :
    Application.change_bearer { imsi := 1, bid := 1 } { imsi := 1, bid := 2 }
      = Except.error "Cannot tear down the default bearer!" ∧
    Application.change_bearer { imsi := 1, bid := 2 } { imsi := 1, bid := 3 }
      = Except.ok { imsi := 1, bid := 3 } :=
  ⟨rfl, rfl⟩

/-! ## C9 — retry bytes count toward RLC occupancy -/

/-- C9: the occupied queue size used by the enqueue admission check,
`queue_used = Σ (size − tx_sent)`, equals the pending bytes plus the
bytes awaiting retransmission, so `tx_retry` bytes still occupy RLC
capacity and a flow with bytes awaiting retry admits strictly fewer new
bytes than its nominal free space over pending alone. -/
theorem queue_used_counts_retry_bytes :
    ∀ b : BearerQ, (∀ p ∈ b.queue, wfPacket p) →
      b.queue_used = b.pending_size +
        sumInt (b.queue.map Packet.rtxWaitingSize) ∧
      (0 < sumInt (b.queue.map Packet.rtxWaitingSize) →
        b.queueSize - b.queue_used < b.queueSize - b.pending_size) := by
  intro b h
  have hs := queue_used_split b.queue h
  constructor
  · simpa [BearerQ.queue_used, BearerQ.pending_size] using hs
  · intro hpos
    simp only [BearerQ.queue_used, BearerQ.pending_size] at hs ⊢
    omega

/-- C9 witness: a queue holding one packet with 50 bytes awaiting retry
occupies 680 bytes while only 630 are pending. -/
theorem queue_used_counts_retry_bytes_witness :
    BearerQ.queue_used
        { queue := [{ pid := 1, size := 780, txSize := 100,
                      rtxWaitingSize := 50, pending := 630, txTime := 0 }],
          queueSize := 10000, loss := [], throughput := [] }
      = BearerQ.pending_size
          { queue := [{ pid := 1, size := 780, txSize := 100,
                        rtxWaitingSize := 50, pending := 630, txTime := 0 }],
            queueSize := 10000, loss := [], throughput := [] }
        + sumInt ([{ pid := 1, size := 780, txSize := 100,
                     rtxWaitingSize := 50, pending := 630,
                     txTime := 0 }].map Packet.rtxWaitingSize) :=
  (queue_used_counts_retry_bytes
    { queue := [{ pid := 1, size := 780, txSize := 100,
                  rtxWaitingSize := 50, pending := 630, txTime := 0 }],
      queueSize := 10000, loss := [], throughput := [] }
    (by decide)).1

/-! ## C10 — packet generation outside the active window -/

/-- C10: a `generate_packet` dispatch on an inactive application, or one
whose stop time has passed, changes nothing: the application state and
the bound flow are unchanged, no TX trace is written, no packet id is
drawn, and no follow-up event is scheduled. -/
theorem generate_packet_frame :
    ∀ (a : AppState) (bearer : Option BearerQ) (now : Int)
      (pid : Nat) (sizeDraw : Int) (iDraw sDraw : Int) (nextLen : Int),
      a.active = false ∨ a.stopTime < now →
      Application.generate_packet a bearer now pid sizeDraw iDraw sDraw
          nextLen
        = Except.ok (a, bearer,
            { txTraces := [], scheduledAt := none,
              pidConsumed := false }) := by
  intro a bearer now pid sizeDraw iDraw sDraw nextLen h
  rcases h with h | h
  · simp [Application.generate_packet, h]
  · have hn : ¬ now ≤ a.stopTime := not_le.mpr h
    by_cases ha : a.active <;>
      simp [Application.generate_packet, ha, hn]

/-- C10 witness: a stopped application generates nothing. -/
theorem generate_packet_frame_witness :
    Application.generate_packet
        { active := false, stopTime := 10000, countPacketsSession := 0,
          packetsCurrentSession := 5 } none 3 7 750 10 1000 6
      = Except.ok
          ({ active := false, stopTime := 10000, countPacketsSession := 0,
             packetsCurrentSession := 5 }, none,
           { txTraces := [], scheduledAt := none,
             pidConsumed := false }) :=
  generate_packet_frame
    { active := false, stopTime := 10000, countPacketsSession := 0,
      packetsCurrentSession := 5 } none 3 7 750 10 1000 6 (Or.inl rfl)

/-! ## HARQ pipeline lemmas -/

theorem rbsList_append (es1 es2 : List RtxEntry) :
    rbsList (es1 ++ es2) = rbsList es1 + rbsList es2 := by
  induction es1 with
  | nil => simp [rbsList]
  | cons e rest ih =>
    rw [List.cons_append]
    simp only [rbsList]
    rw [ih]
    omega

theorem lookupRtx_rtxAppend (m : RtxPending) (k : Int) (e : RtxEntry)
    (kq : Int) :
    lookupRtx (rtxAppend m k e) kq
      = if kq = k then lookupRtx m kq ++ [e] else lookupRtx m kq := by
  induction m with
  | nil =>
    by_cases h : kq = k
    · subst h; simp [rtxAppend, lookupRtx]
    · have h2 : ¬ k = kq := fun hh => h hh.symm
      simp [rtxAppend, lookupRtx, h, h2]
  | cons hd rest ih =>
    obtain ⟨k2, es2⟩ := hd
    by_cases h2 : k2 = k
    · subst h2
      by_cases hq : k2 = kq
      · subst hq; simp [rtxAppend, lookupRtx]
      · have hq2 : ¬ kq = k2 := fun hh => hq hh.symm
        simp [rtxAppend, lookupRtx, hq, hq2]
    · by_cases hq : k2 = kq
      · subst hq
        simp [rtxAppend, lookupRtx, h2]
      · simp [rtxAppend, lookupRtx, h2, hq, ih]

theorem lookupRtx_foldAppend (k : Int) :
    ∀ (es : List RtxEntry) (m : RtxPending) (kq : Int),
      lookupRtx (es.foldl (fun m1 e => rtxAppend m1 k e) m) kq
        = if kq = k then lookupRtx m kq ++ es else lookupRtx m kq := by
  intro es
  induction es with
  | nil => intro m kq; by_cases h : kq = k <;> simp [h]
  | cons e rest ih =>
    intro m kq
    simp only [List.foldl_cons, ih, lookupRtx_rtxAppend]
    by_cases h : kq = k <;> simp [h]

theorem eraseRtx_cons (k2 : Int) (es2 : List RtxEntry)
    (rest : RtxPending) (t : Int) :
    eraseRtx ((k2, es2) :: rest) t
      = if k2 = t then eraseRtx rest t
        else (k2, es2) :: eraseRtx rest t := by
  by_cases h : k2 = t <;> simp [eraseRtx, List.filter_cons, h]

theorem lookupRtx_eraseRtx (m : RtxPending) (t kq : Int) :
    lookupRtx (eraseRtx m t) kq
      = if kq = t then [] else lookupRtx m kq := by
  induction m with
  | nil => by_cases h : kq = t <;> simp [eraseRtx, lookupRtx, h]
  | cons hd rest ih =>
    obtain ⟨k2, es2⟩ := hd
    rw [eraseRtx_cons]
    by_cases h2 : k2 = t
    · rw [if_pos h2, ih]
      by_cases hq : kq = t
      · simp [hq]
      · have hk : ¬ k2 = kq := fun hh => hq (hh ▸ h2)
        simp [hq, lookupRtx, hk]
    · rw [if_neg h2]
      by_cases he : k2 = kq
      · subst he
        have hq : ¬ k2 = t := h2
        simp [lookupRtx, hq, ih]
      · simp [lookupRtx, he, ih]

theorem processEntries_used (t : Int) (coin : Nat → Bool) :
    ∀ (es : List RtxEntry) (m : RtxPending) (i used : Nat)
      (ds : List (Nat × Nat × Nat)),
      (processEntries t coin es m i used ds).used = used + rbsList es := by
  intro es
  induction es with
  | nil => intro m i used ds; simp [processEntries, rbsList]
  | cons e rest ih =>
    intro m i used ds
    simp only [processEntries, rbsList]
    split_ifs <;> rw [ih] <;> omega

theorem processEntries_coinIdx (t : Int) (coin : Nat → Bool) :
    ∀ (es : List RtxEntry) (m : RtxPending) (i used : Nat)
      (ds : List (Nat × Nat × Nat)),
      (processEntries t coin es m i used ds).coinIdx
        = i + coinsUsed es := by
  intro es
  induction es with
  | nil => intro m i used ds; simp [processEntries, coinsUsed]
  | cons e rest ih =>
    intro m i used ds
    simp only [processEntries, coinsUsed]
    split_ifs <;> rw [ih] <;> omega

theorem processEntries_drains (t : Int) (coin : Nat → Bool) :
    ∀ (es : List RtxEntry) (m : RtxPending) (i used : Nat)
      (ds : List (Nat × Nat × Nat)),
      (processEntries t coin es m i used ds).drains
        = ds ++ drainsOf coin es i := by
  intro es
  induction es with
  | nil => intro m i used ds; simp [processEntries, drainsOf]
  | cons e rest ih =>
    intro m i used ds
    simp only [processEntries, drainsOf]
    split_ifs <;> rw [ih] <;> simp

theorem processEntries_pending (t : Int) (coin : Nat → Bool) :
    ∀ (es : List RtxEntry) (m : RtxPending) (i used : Nat)
      (ds : List (Nat × Nat × Nat)),
      (processEntries t coin es m i used ds).pending
        = (failedOf coin es i).foldl
            (fun m1 e => rtxAppend m1 (t + RTX_DELAY) e) m := by
  intro es
  induction es with
  | nil => intro m i used ds; simp [processEntries, failedOf]
  | cons e rest ih =>
    intro m i used ds
    simp only [processEntries, failedOf, SchedulerBase.rtx]
    split_ifs <;> simp [ih]

theorem process_retransmissions_lookup (t : Int) (m : RtxPending)
    (coin : Nat → Bool) (i : Nat) (kq : Int) :
    lookupRtx (process_retransmissions t m coin i).pending kq
      = if kq = t then []
        else if kq = t + RTX_DELAY then
          lookupRtx m kq ++ failedOf coin (lookupRtx m t) i
        else lookupRtx m kq := by
  simp only [process_retransmissions, processEntries_pending,
    lookupRtx_eraseRtx, lookupRtx_foldAppend]

theorem process_retransmissions_used (t : Int) (m : RtxPending)
    (coin : Nat → Bool) (i : Nat) :
    (process_retransmissions t m coin i).used = rbsAt m t := by
  simp [process_retransmissions, processEntries_used, rbsAt]

theorem process_retransmissions_coinIdx (t : Int) (m : RtxPending)
    (coin : Nat → Bool) (i : Nat) :
    (process_retransmissions t m coin i).coinIdx
      = i + coinsUsed (lookupRtx m t) := by
  simp [process_retransmissions, processEntries_coinIdx]

theorem process_retransmissions_drains (t : Int) (m : RtxPending)
    (coin : Nat → Bool) (i : Nat) :
    (process_retransmissions t m coin i).drains
      = drainsOf coin (lookupRtx m t) i := by
  simp [process_retransmissions, processEntries_drains]

theorem failedOf_mem (coin : Nat → Bool) :
    ∀ (es : List RtxEntry) (i : Nat) (e : RtxEntry),
      e ∈ failedOf coin es i →
      ∃ e0, e0 ∈ es ∧ ¬ e0.attempt = 4 ∧
        e = { e0 with attempt := e0.attempt + 1 } := by
  intro es
  induction es with
  | nil => intro i e he; simp [failedOf] at he
  | cons e1 rest ih =>
    intro i e he
    simp only [failedOf] at he
    split_ifs at he with h1 h2
    · obtain ⟨e0, h0⟩ := ih i e he
      exact ⟨e0, List.mem_cons_of_mem e1 h0.1, h0.2.1, h0.2.2⟩
    · obtain ⟨e0, h0⟩ := ih (i + 1) e he
      exact ⟨e0, List.mem_cons_of_mem e1 h0.1, h0.2.1, h0.2.2⟩
    · rcases List.mem_cons.mp he with h | h
      · exact ⟨e1, List.mem_cons_self e1 rest, h1, h⟩
      · obtain ⟨e0, h0⟩ := ih (i + 1) e h
        exact ⟨e0, List.mem_cons_of_mem e1 h0.1, h0.2.1, h0.2.2⟩

theorem drainsOf_mem_of_forced (coin : Nat → Bool) :
    ∀ (es : List RtxEntry) (i : Nat) (e : RtxEntry),
      e ∈ es → e.attempt = 4 →
      (e.ue, e.bid, e.tbs) ∈ drainsOf coin es i := by
  intro es
  induction es with
  | nil => intro i e he; simp at he
  | cons e1 rest ih =>
    intro i e he h4
    rcases List.mem_cons.mp he with h | h
    · subst h
      simp [drainsOf, h4]
    · simp only [drainsOf]
      split_ifs with h1 h2
      · exact List.mem_cons_of_mem _ (ih i e h h4)
      · exact List.mem_cons_of_mem _ (ih (i + 1) e h h4)
      · exact ih (i + 1) e h h4

theorem rbsList_failedOf_le (coin : Nat → Bool) :
    ∀ (es : List RtxEntry) (i : Nat),
      rbsList (failedOf coin es i) ≤ rbsList es := by
  intro es
  induction es with
  | nil => intro i; simp [failedOf, rbsList]
  | cons e rest ih =>
    intro i
    simp only [failedOf, rbsList]
    split_ifs with h1 h2
    · have := ih i; omega
    · have := ih (i + 1); omega
    · simp only [rbsList]
      have := ih (i + 1); omega

/-! ## C2 — HARQ retry discipline -/

/-- C2: one `process_retransmissions` dispatch obeys the HARQ bound.
If every pending entry has attempt counter in `[1, 4]` (as every entry
enqueued by the scheduler does), then after processing: the bound still
holds everywhere; the RNG index advanced by exactly one draw per
non-forced entry, so an entry popped at attempt 4 draws nothing; every
attempt-4 entry is completed (its `tbs` is drained to the flow); the
entries due `RTX_DELAY = 8` ms later are the previous ones plus exactly
the failed entries, each re-enqueued with its attempt counter
incremented by one; no other due time changes, and the processed time is
emptied. -/
theorem harq_retry_discipline :
    ∀ (t : Int) (m : RtxPending) (coin : Nat → Bool) (i : Nat),
      (∀ k e, e ∈ lookupRtx m k → 1 ≤ e.attempt ∧ e.attempt ≤ 4) →
      (∀ k e, e ∈ lookupRtx (process_retransmissions t m coin i).pending k →
         1 ≤ e.attempt ∧ e.attempt ≤ 4) ∧
      (process_retransmissions t m coin i).coinIdx
        = i + coinsUsed (lookupRtx m t) ∧
      (∀ e ∈ lookupRtx m t, e.attempt = 4 →
         (e.ue, e.bid, e.tbs) ∈ (process_retransmissions t m coin i).drains) ∧
      lookupRtx (process_retransmissions t m coin i).pending (t + RTX_DELAY)
        = lookupRtx m (t + RTX_DELAY)
            ++ failedOf coin (lookupRtx m t) i ∧
      (∀ e ∈ failedOf coin (lookupRtx m t) i,
         ∃ e0, e0 ∈ lookupRtx m t ∧ ¬ e0.attempt = 4 ∧
           e = { e0 with attempt := e0.attempt + 1 }) ∧
      (∀ kq, ¬ kq = t → ¬ kq = t + RTX_DELAY →
         lookupRtx (process_retransmissions t m coin i).pending kq
           = lookupRtx m kq) ∧
      lookupRtx (process_retransmissions t m coin i).pending t = [] := by
  intro t m coin i hbound
  have hne : ¬ t + RTX_DELAY = t := by
    intro hcon
    rw [show RTX_DELAY = (8 : Int) from rfl] at hcon
    omega
  refine ⟨?_, process_retransmissions_coinIdx t m coin i, ?_, ?_, ?_, ?_, ?_⟩
  · intro k e he
    rw [process_retransmissions_lookup] at he
    split_ifs at he with h1 h2
    · simp at he
    · rcases List.mem_append.mp he with h | h
      · exact hbound k e h
      · obtain ⟨e0, he0, hne4, heq⟩ := failedOf_mem coin _ i e h
        have hb0 := hbound t e0 he0
        subst heq
        dsimp only
        omega
    · exact hbound k e he
  · intro e he h4
    rw [process_retransmissions_drains]
    exact drainsOf_mem_of_forced coin _ i e he h4
  · rw [process_retransmissions_lookup]
    simp [hne]
  · intro e he
    exact failedOf_mem coin _ i e he
  · intro kq h1 h2
    rw [process_retransmissions_lookup]
    simp [h1, h2]
  · rw [process_retransmissions_lookup]
    simp

/-- C2 witness: a due list holding one forced-success entry (attempt 4)
and one ordinary entry (attempt 2), with an always-failing RNG: exactly
one draw is made, the attempt-4 entry is drained, and the failed entry
reappears 8 ms later at attempt 3. -/
theorem harq_retry_discipline_witness :
    (process_retransmissions 0
        [((0 : Int),
          [{ ue := 1, bid := 2, rbs := 3, tbs := 100, attempt := 4 },
           { ue := 1, bid := 2, rbs := 2, tbs := 50, attempt := 2 }])]
        (fun _ => false) 0).coinIdx
      = 0 + coinsUsed (lookupRtx
          [((0 : Int),
            [{ ue := 1, bid := 2, rbs := 3, tbs := 100, attempt := 4 },
             { ue := 1, bid := 2, rbs := 2, tbs := 50, attempt := 2 }])] 0) ∧
    ((1, 2, 100) ∈ (process_retransmissions 0
        [((0 : Int),
          [{ ue := 1, bid := 2, rbs := 3, tbs := 100, attempt := 4 },
           { ue := 1, bid := 2, rbs := 2, tbs := 50, attempt := 2 }])]
        (fun _ => false) 0).drains) ∧
    lookupRtx (process_retransmissions 0
        [((0 : Int),
          [{ ue := 1, bid := 2, rbs := 3, tbs := 100, attempt := 4 },
           { ue := 1, bid := 2, rbs := 2, tbs := 50, attempt := 2 }])]
        (fun _ => false) 0).pending ((0 : Int) + RTX_DELAY)
      = lookupRtx
          [((0 : Int),
            [{ ue := 1, bid := 2, rbs := 3, tbs := 100, attempt := 4 },
             { ue := 1, bid := 2, rbs := 2, tbs := 50, attempt := 2 }])]
          ((0 : Int) + RTX_DELAY)
          ++ failedOf (fun _ => false)
              (lookupRtx
                [((0 : Int),
                  [{ ue := 1, bid := 2, rbs := 3, tbs := 100, attempt := 4 },
                   { ue := 1, bid := 2, rbs := 2, tbs := 50,
                     attempt := 2 }])] 0) 0 := by
  have hb : ∀ k e, e ∈ lookupRtx
      [((0 : Int),
        [{ ue := 1, bid := 2, rbs := 3, tbs := 100, attempt := 4 },
         { ue := 1, bid := 2, rbs := 2, tbs := 50, attempt := 2 }])] k →
      1 ≤ e.attempt ∧ e.attempt ≤ 4 := by
    intro k e he
    simp only [lookupRtx] at he
    split_ifs at he with h
    · rcases List.mem_cons.mp he with h1 | h1
      · subst h1; decide
      · simp at h1; subst h1; decide
    · simp at he
  have hmain := harq_retry_discipline 0
    [((0 : Int),
      [{ ue := 1, bid := 2, rbs := 3, tbs := 100, attempt := 4 },
       { ue := 1, bid := 2, rbs := 2, tbs := 50, attempt := 2 }])]
    (fun _ => false) 0 hb
  refine ⟨hmain.2.1, ?_, hmain.2.2.2.1⟩
  exact hmain.2.2.1
    { ue := 1, bid := 2, rbs := 3, tbs := 100, attempt := 4 }
    (by decide) rfl

/-! ## Round-robin allocation and RB budget lemmas -/

theorem sumNat_cons (x : Nat) (l : List Nat) :
    sumNat (x :: l) = x + sumNat l := rfl

theorem sumNat_replicate_zero (n : Nat) :
    sumNat (List.replicate n 0) = 0 := by
  induction n with
  | zero => rfl
  | succ k ih => simp [List.replicate, sumNat_cons, ih]

theorem sumNat_set_getD (l : List Nat) (i : Nat) :
    sumNat (l.set i (l.getD i 0 + 1)) ≤ sumNat l + 1 := by
  induction l generalizing i with
  | nil => simp [sumNat]
  | cons x rest ih =>
    cases i with
    | zero =>
      simp only [List.set, List.getD_cons_zero, sumNat_cons]
      omega
    | succ j =>
      simp only [List.set, List.getD_cons_succ, sumNat_cons]
      have := ih j
      omega

theorem sumNat_zip_snd_le :
    ∀ (bs : List AllocB) (alloc : List Nat),
      sumNat ((bs.zip alloc).map Prod.snd) ≤ sumNat alloc := by
  intro bs
  induction bs with
  | nil => intro alloc; simp [sumNat]
  | cons b rest ih =>
    intro alloc
    cases alloc with
    | nil => simp [sumNat]
    | cons a as =>
      simp only [List.zip_cons_cons, List.map_cons, sumNat_cons]
      have := ih as
      omega

theorem rrLoop_sum (tbsOf : Nat → Nat → Int) (bs : List AllocB) :
    ∀ (fuel : Nat) (alloc : List Nat) (idx last : Nat) (available : Int),
      sumNat (rrLoop tbsOf bs fuel alloc idx last available)
        ≤ sumNat alloc + Int.toNat available := by
  intro fuel
  induction fuel with
  | zero =>
    intro alloc idx last available
    simp only [rrLoop]
    exact Nat.le_add_right _ _
  | succ f ih =>
    intro alloc idx last available
    simp only [rrLoop]
    split_ifs with h0 hlen hpend hsingle hdone hrev hdone2
    · exact Nat.le_add_right _ _
    · exact Nat.le_add_right _ _
    · have hset := sumNat_set_getD alloc (idx % bs.length)
      omega
    · have hset := sumNat_set_getD alloc (idx % bs.length)
      have hrec := ih (alloc.set (idx % bs.length)
        (alloc.getD (idx % bs.length) 0 + 1))
        ((idx % bs.length + 1) % bs.length) (idx % bs.length)
        (available - 1)
      omega
    · have hset := sumNat_set_getD alloc (idx % bs.length)
      have hrec := ih (alloc.set (idx % bs.length)
        (alloc.getD (idx % bs.length) 0 + 1))
        ((idx % bs.length + 1) % bs.length) (idx % bs.length)
        (available - 1)
      omega
    · exact Nat.le_add_right _ _
    · have hrec := ih alloc ((idx % bs.length + 1) % bs.length) last
        available
      omega
    · have hrec := ih alloc ((idx % bs.length + 1) % bs.length) last
        available
      omega

theorem process_allocations_lookup_ne (t : Int) (coin : Nat → Bool)
    (tbsOf : Nat → Nat → Int) :
    ∀ (rows : List (AllocB × Nat)) (m : RtxPending) (i : Nat) (kq : Int),
      ¬ kq = t + RTX_DELAY →
      lookupRtx (process_allocations t coin tbsOf rows m i).1 kq
        = lookupRtx m kq := by
  intro rows
  induction rows with
  | nil => intro m i kq hk; simp [process_allocations]
  | cons row rest ih =>
    intro m i kq hk
    obtain ⟨b, n⟩ := row
    simp only [process_allocations, SchedulerBase.rtx]
    split_ifs with h1 h2
    · exact ih m i kq hk
    · exact ih m (i + 1) kq hk
    · rw [ih _ (i + 1) kq hk, lookupRtx_rtxAppend, if_neg hk]

theorem process_allocations_rbs_bound (t : Int) (coin : Nat → Bool)
    (tbsOf : Nat → Nat → Int) :
    ∀ (rows : List (AllocB × Nat)) (m : RtxPending) (i : Nat),
      rbsAt (process_allocations t coin tbsOf rows m i).1 (t + RTX_DELAY)
        ≤ rbsAt m (t + RTX_DELAY) + sumNat (rows.map Prod.snd) := by
  intro rows
  induction rows with
  | nil => intro m i; simp [process_allocations]
  | cons row rest ih =>
    intro m i
    obtain ⟨b, n⟩ := row
    simp only [process_allocations, SchedulerBase.rtx, List.map_cons,
      sumNat_cons]
    split_ifs with h1 h2
    · have := ih m i; omega
    · have := ih m (i + 1); omega
    · have hrec := ih (rtxAppend m (t + RTX_DELAY)
        { ue := b.ue, bid := b.bid, rbs := n,
          tbs := Int.toNat (tbsOf b.mcs n), attempt := 0 + 1 }) (i + 1)
      have happ : rbsAt (rtxAppend m (t + RTX_DELAY)
          { ue := b.ue, bid := b.bid, rbs := n,
            tbs := Int.toNat (tbsOf b.mcs n), attempt := 0 + 1 })
          (t + RTX_DELAY)
          = rbsAt m (t + RTX_DELAY) + n := by
        unfold rbsAt
        rw [lookupRtx_rtxAppend, if_pos rfl, rbsList_append]
        rfl
      omega

/-- One scheduler dispatch keeps the per-interval RB consumption within
`num_rbs` and preserves the trajectory invariant. -/
theorem schedTick_bound (numRbs : Nat) (tbsOf : Nat → Nat → Int)
    (coin : Nat → Bool) (t : Int) (st : SchedState) (bs : List AllocB)
    (startIdx : Nat) (hinv : SchedInv numRbs t st.pending) :
    (schedTick numRbs tbsOf coin t st bs startIdx).2.usedRtx
      + (schedTick numRbs tbsOf coin t st bs startIdx).2.fresh ≤ numRbs ∧
    SchedInv numRbs (t + 1)
      (schedTick numRbs tbsOf coin t st bs startIdx).1.pending := by
  obtain ⟨hall, hfut⟩ := hinv
  have hD : RTX_DELAY = (8 : Int) := rfl
  simp only [schedTick]
  set r := process_retransmissions t st.pending coin st.coinIdx with hrdef
  set avail : Int := (numRbs : Int) - (r.used : Int) with havdef
  set fuel := Int.toNat avail * (bs.length + 1) + bs.length + 1 with hfdef
  set alloc := rrLoop tbsOf bs fuel (List.replicate bs.length 0)
    startIdx startIdx avail with haldef
  set pa := process_allocations t coin tbsOf (bs.zip alloc) r.pending
    r.coinIdx with hpadef
  have hused : r.used = rbsAt st.pending t := by
    rw [hrdef]; exact process_retransmissions_used t st.pending coin
      st.coinIdx
  have husedle : r.used ≤ numRbs := by rw [hused]; exact hall t
  have hfresh : sumNat alloc ≤ Int.toNat avail := by
    have h1 := rrLoop_sum tbsOf bs fuel (List.replicate bs.length 0)
      startIdx startIdx avail
    rw [sumNat_replicate_zero] at h1
    simpa [haldef] using h1
  have hlookup : ∀ kq, lookupRtx r.pending kq
      = if kq = t then []
        else if kq = t + RTX_DELAY then
          lookupRtx st.pending kq
            ++ failedOf coin (lookupRtx st.pending t) st.coinIdx
        else lookupRtx st.pending kq := by
    intro kq
    rw [hrdef]
    exact process_retransmissions_lookup t st.pending coin st.coinIdx kq
  have hfailed : rbsList (failedOf coin (lookupRtx st.pending t)
      st.coinIdx) ≤ r.used := by
    rw [hused]
    exact rbsList_failedOf_le coin (lookupRtx st.pending t) st.coinIdx
  have hratD : rbsAt r.pending (t + RTX_DELAY)
      ≤ rbsList (failedOf coin (lookupRtx st.pending t) st.coinIdx) := by
    unfold rbsAt
    rw [hlookup]
    have hne : ¬ t + RTX_DELAY = t := by rw [hD]; omega
    rw [if_neg hne, if_pos rfl, rbsList_append]
    have hz : rbsAt st.pending (t + RTX_DELAY) = 0 :=
      hfut (t + RTX_DELAY) (le_refl _)
    unfold rbsAt at hz
    omega
  have hpaD : rbsAt pa.1 (t + RTX_DELAY)
      ≤ rbsAt r.pending (t + RTX_DELAY) + sumNat alloc := by
    have h1 := process_allocations_rbs_bound t coin tbsOf (bs.zip alloc)
      r.pending r.coinIdx
    have h2 := sumNat_zip_snd_le bs alloc
    rw [hpadef]
    omega
  constructor
  · omega
  · constructor
    · intro k
      by_cases hk : k = t + RTX_DELAY
      · subst hk
        omega
      · unfold rbsAt
        rw [process_allocations_lookup_ne t coin tbsOf (bs.zip alloc)
          r.pending r.coinIdx k hk]
        rw [hlookup]
        by_cases hk2 : k = t
        · simp [hk2, rbsList]
        · rw [if_neg hk2, if_neg hk]
          exact hall k
    · intro k hk
      have hk1 : ¬ k = t := by rw [hD] at hk; omega
      have hk2 : ¬ k = t + RTX_DELAY := by rw [hD] at hk ⊢; omega
      unfold rbsAt
      rw [process_allocations_lookup_ne t coin tbsOf (bs.zip alloc)
        r.pending r.coinIdx k hk2]
      rw [hlookup, if_neg hk1, if_neg hk2]
      have hz := hfut k (by rw [hD] at hk ⊢; omega)
      unfold rbsAt at hz
      exact hz

/-- The trajectory invariant holds at every dispatch, starting from the
empty retry map. -/
theorem runSched_inv (numRbs : Nat) (tbsOf : Nat → Nat → Int)
    (coin : Nat → Bool) (t0 : Int) (bsSeq : Nat → List AllocB)
    (idxSeq : Nat → Nat) :
    ∀ n : Nat, SchedInv numRbs (t0 + (n : Int))
      (runSched numRbs tbsOf coin t0 bsSeq idxSeq n).pending := by
  intro n
  induction n with
  | zero =>
    constructor
    · intro k; simp [runSched, rbsAt, lookupRtx, rbsList]
    · intro k hk; simp [runSched, rbsAt, lookupRtx, rbsList]
  | succ k ih =>
    have hstep := (schedTick_bound numRbs tbsOf coin (t0 + k)
      (runSched numRbs tbsOf coin t0 bsSeq idxSeq k) (bsSeq k)
      (idxSeq k) ih).2
    have htime : t0 + ((k + 1 : Nat) : Int) = (t0 + (k : Int)) + 1 := by
      push_cast
      ring
    rw [htime]
    simp only [runSched]
    exact hstep

/-! ## C1 — per-interval RB budget -/

/-- C1: in every 1 ms scheduler interval of every trajectory (arbitrary
RNG outcomes, arbitrary flow-registry contents and round-robin cursor at
each dispatch, starting from the empty retry map), the RBs consumed by
the HARQ retransmissions processed in the interval plus the RBs granted
to fresh allocations total at most `num_rbs`. -/
theorem rb_budget_per_interval :
    ∀ (numRbs : Nat) (tbsOf : Nat → Nat → Int) (coin : Nat → Bool)
      (t0 : Int) (bsSeq : Nat → List AllocB) (idxSeq : Nat → Nat)
      (n : Nat),
      (obsAt numRbs tbsOf coin t0 bsSeq idxSeq n).usedRtx
        + (obsAt numRbs tbsOf coin t0 bsSeq idxSeq n).fresh ≤ numRbs := by
  intro numRbs tbsOf coin t0 bsSeq idxSeq n
  have h := (schedTick_bound numRbs tbsOf coin (t0 + n)
    (runSched numRbs tbsOf coin t0 bsSeq idxSeq n) (bsSeq n) (idxSeq n)
    (runSched_inv numRbs tbsOf coin t0 bsSeq idxSeq n)).1
  simpa [obsAt] using h

end Qppsim
